import Mathlib

/-!
Shallow embedding of the deletion-event backup pipeline (main.go).

Go strings are modelled as lists of bytes (`GoStr := List Nat`); every
operation of the source that the claims touch is translated bytewise,
matching the byte-oriented semantics of Go string indexing, slicing and
`len`.  ASCII string literals are written through `strOf`, which maps each
character of a Lean literal to its code point; all literals used here are
ASCII, where this coincides with UTF-8 bytes.  Two deliberate modelling
notes: `strings.TrimSpace` is modelled on the ASCII whitespace bytes (the
non-ASCII Unicode spaces would occupy several bytes each and never arise
from the ASCII constants of the program), and `strings.ToUpper` /
`strings.ToLower` are modelled as the ASCII case maps, which agree with
the Unicode maps on every comparison the program performs (the reserved
device names and the MIME extension test are pure ASCII).  Wall-clock
reads (`time.Now().UnixNano()`) are passed in as an explicit `now`
parameter.  A Go run-time panic is modelled as `Option.none`.
-/

/-- Go byte strings. -/
abbrev GoStr := List Nat

/-- ASCII literal helper: each character of the Lean literal becomes one byte. -/
def strOf (s : String) : GoStr := s.data.map Char.toNat

/-- Decimal digits of a natural number, as bytes (`strconv` / `%d` on a
non-negative value). -/
def natToDec (n : Nat) : GoStr := (Nat.toDigits 10 n).map Char.toNat

/-- `%d` / `strconv.FormatInt` for a (possibly negative) integer. -/
def intToDec (i : Int) : GoStr :=
  if i < 0 then 45 :: natToDec (-i).toNat else natToDec i.toNat

/-- `strings.ReplaceAll` for a single-byte pattern and single-byte substitute. -/
def replaceByte (a b : Nat) (s : GoStr) : GoStr :=
  s.map (fun c => if c = a then b else c)

/-- The two `strings.ReplaceAll` calls of `sanitize`: path separators become
underscores (main.go lines 427-428). -/
def replaceSeps (s : GoStr) : GoStr :=
  replaceByte 92 95 (replaceByte 47 95 s)

/-- One byte through the `strings.NewReplacer` table of `sanitize`
(main.go lines 431-440): the seven problematic punctuation bytes are replaced,
the ASCII control bytes 0x00-0x1F and 0x7F are deleted, everything else is
kept.  All patterns are single bytes, so the replacer acts bytewise. -/
def replacerByte (c : Nat) : Option Nat :=
  if c = 58 ∨ c = 42 ∨ c = 63 ∨ c = 60 ∨ c = 62 ∨ c = 124 then some 95
  else if c = 34 then some 39
  else if c ≤ 31 ∨ c = 127 then none
  else some c

/-- `replacer.Replace` of `sanitize`. -/
def replacerStep (s : GoStr) : GoStr := s.filterMap replacerByte

/-- ASCII whitespace bytes recognised by `strings.TrimSpace`. -/
def isSpaceByte (c : Nat) : Bool :=
  c = 9 ∨ c = 10 ∨ c = 11 ∨ c = 12 ∨ c = 13 ∨ c = 32

/-- Trim from the left while the predicate holds. -/
def trimLeftP (p : Nat → Bool) (s : GoStr) : GoStr := s.dropWhile p

/-- Trim from the right while the predicate holds. -/
def trimRightP (p : Nat → Bool) (s : GoStr) : GoStr :=
  (s.reverse.dropWhile p).reverse

/-- `strings.TrimSpace` (main.go line 444). -/
def trimSpaceGo (s : GoStr) : GoStr := trimRightP isSpaceByte (trimLeftP isSpaceByte s)

/-- `strings.Trim(s, ".")` (main.go line 445). -/
def trimDots (s : GoStr) : GoStr :=
  trimRightP (fun c => c == 46) (trimLeftP (fun c => c == 46) s)

/-- The replacement-and-trim prefix of `sanitize` (lines 427-445). -/
def cleanName (s : GoStr) : GoStr :=
  trimDots (trimSpaceGo (replacerStep (replaceSeps s)))

/-- `filepath.Ext`: the suffix starting at the last dot, empty if no dot.
The scan of the source also stops at a path separator, but every caller in
this program applies it to a string from which separators have already
been replaced. -/
def goExt (s : GoStr) : GoStr :=
  let r := s.reverse.takeWhile (fun b => ¬ b == 46)
  if r.length = s.length then [] else s.drop (s.length - r.length - 1)

/-- The length-limiting step of `sanitize` (main.go lines 448-461).
`none` models the Go run-time panic of the slice expression
`base[:maxLen-len(ext)]` when `maxLen-len(ext)` is negative. -/
def hardCap (r : GoStr) : GoStr := if r.length > 220 then r.take 220 else r

def truncateName (s : GoStr) : Option GoStr :=
  if s.length ≤ 220 then some s
  else if ((s.take (s.length - (goExt s).length)).length : Int) >
      220 - ((goExt s).length : Int) then
    if (220 : Int) - ((goExt s).length : Int) < 0 then none
    else some (hardCap ((s.take (s.length - (goExt s).length)).take
      ((220 - ((goExt s).length : Int)).toNat) ++ goExt s))
  else some (hardCap (s.take (s.length - (goExt s).length) ++ goExt s))

/-- ASCII upper-casing of one byte (`strings.ToUpper`; see the module
comment for the Unicode caveat). -/
def toUpperByte (c : Nat) : Nat := if 97 ≤ c ∧ c ≤ 122 then c - 32 else c

/-- `strings.ToUpper`. -/
def toUpperGo (s : GoStr) : GoStr := s.map toUpperByte

/-- ASCII lower-casing of one byte (`strings.ToLower`). -/
def toLowerByte (c : Nat) : Nat := if 65 ≤ c ∧ c ≤ 90 then c + 32 else c

/-- `strings.ToLower`. -/
def toLowerGo (s : GoStr) : GoStr := s.map toLowerByte

/-- The Windows reserved device names of `sanitize` (main.go line 470). -/
def reservedNames : List GoStr :=
  [strOf "CON", strOf "PRN", strOf "AUX", strOf "NUL",
   strOf "COM1", strOf "COM2", strOf "COM3", strOf "COM4", strOf "COM5",
   strOf "COM6", strOf "COM7", strOf "COM8", strOf "COM9",
   strOf "LPT1", strOf "LPT2", strOf "LPT3", strOf "LPT4", strOf "LPT5",
   strOf "LPT6", strOf "LPT7", strOf "LPT8", strOf "LPT9"]

/-- The reserved-name test of `sanitize` (main.go lines 469-482): the name
is upper-cased, its extension is stripped, and the base is compared with
each reserved device name. -/
def isReservedBase (t : GoStr) : Bool :=
  let up := toUpperGo t
  let e := goExt up
  let base := if e = [] then up else up.take (up.length - e.length)
  reservedNames.any (fun r => r == base)

/-- `sanitize` (main.go lines 422-485).  `now` stands for
`time.Now().UnixNano()`, read when the degenerate-name branch fires;
`none` models the run-time panic of the truncation step. -/
def sanitize (now : Int) (s : GoStr) : Option GoStr :=
  if s = [] then some (strOf "empty_filename")
  else
    match truncateName (cleanName s) with
    | none => none
    | some t =>
      if t = [] ∨ t = [46] ∨ t = [46, 46] then
        some (strOf "sanitized_file_" ++ intToDec now)
      else if isReservedBase t then some (95 :: t)
      else some t

/-- `true` when `sanitize` takes the branch that replaces an empty or
dot-only result with the timestamp placeholder, or the empty-input branch.
Defined by the same staged computation as `sanitize`. -/
def takesPlaceholder (s : GoStr) : Bool :=
  if s = [] then true
  else
    match truncateName (cleanName s) with
    | none => false
    | some t => if t = [] ∨ t = [46] ∨ t = [46, 46] then true else false

/-- `true` when `sanitize` takes the branch that prepends an underscore to
a reserved device name. -/
def takesReserved (s : GoStr) : Bool :=
  if s = [] then false
  else
    match truncateName (cleanName s) with
    | none => false
    | some t =>
      if t = [] ∨ t = [46] ∨ t = [46, 46] then false
      else isReservedBase t

/-- A byte that the replacement stages of `sanitize` leave unchanged. -/
def KeptByte (c : Nat) : Prop := replacerByte c = some c ∧ c ≠ 47 ∧ c ≠ 92

theorem ne_sep_of_mem_replaceSeps {s : GoStr} {c : Nat} (h : c ∈ replaceSeps s) :
    c ≠ 47 ∧ c ≠ 92 := by
  simp only [replaceSeps, replaceByte, List.map_map, List.mem_map] at h
  obtain ⟨a, -, rfl⟩ := h
  simp only [Function.comp]
  refine ⟨?_, ?_⟩ <;> split_ifs <;> omega

theorem kept_of_mem_afterReplacer {s : GoStr} {c : Nat}
    (h : c ∈ replacerStep (replaceSeps s)) : KeptByte c := by
  obtain ⟨a, ha, hfa⟩ := List.mem_filterMap.mp h
  have hsep := ne_sep_of_mem_replaceSeps ha
  revert hfa
  unfold replacerByte
  split_ifs with h1 h2 h3
  · intro hfa; injection hfa with hfa; subst hfa
    exact ⟨by decide, by decide, by decide⟩
  · intro hfa; injection hfa with hfa; subst hfa
    exact ⟨by decide, by decide, by decide⟩
  · intro hfa; cases hfa
  · intro hfa; injection hfa with hfa; subst hfa
    exact ⟨by simp [replacerByte, h1, h2, h3], hsep.1, hsep.2⟩

theorem mem_trimLeftP {p : Nat → Bool} {s : GoStr} {c : Nat}
    (h : c ∈ trimLeftP p s) : c ∈ s :=
  (List.dropWhile_sublist _).subset h

theorem mem_trimRightP {p : Nat → Bool} {s : GoStr} {c : Nat}
    (h : c ∈ trimRightP p s) : c ∈ s := by
  unfold trimRightP at h
  rw [List.mem_reverse] at h
  have h2 := (List.dropWhile_sublist p).subset h
  rwa [List.mem_reverse] at h2

theorem mem_cleanName {s : GoStr} {c : Nat} (h : c ∈ cleanName s) :
    c ∈ replacerStep (replaceSeps s) :=
  mem_trimLeftP (mem_trimRightP (mem_trimLeftP (mem_trimRightP h)))

theorem mem_goExt {s : GoStr} {c : Nat} (h : c ∈ goExt s) : c ∈ s := by
  unfold goExt at h
  simp only at h
  split_ifs at h with h1
  · cases h
  · exact List.drop_subset _ _ h

theorem mem_hardCap {r : GoStr} {c : Nat} (h : c ∈ hardCap r) : c ∈ r := by
  unfold hardCap at h
  split_ifs at h with h1
  · exact List.take_subset _ _ h
  · exact h

theorem length_hardCap (r : GoStr) : (hardCap r).length ≤ 220 := by
  unfold hardCap
  split_ifs with h1
  · simp [List.length_take]
  · omega

theorem mem_of_truncateName {s t : GoStr} (h : truncateName s = some t) {c : Nat}
    (hc : c ∈ t) : c ∈ s := by
  unfold truncateName at h
  split_ifs at h with h1 h2 h3 <;>
    first
      | exact Option.noConfusion h
      | (injection h with h; subst h;
         first
           | exact hc
           | (rcases List.mem_append.mp (mem_hardCap hc) with h | h <;>
               first
                 | exact List.take_subset _ _ (List.take_subset _ _ h)
                 | exact List.take_subset _ _ h
                 | exact mem_goExt h))

theorem truncateName_of_le {s : GoStr} (h : s.length ≤ 220) :
    truncateName s = some s := by
  unfold truncateName
  rw [if_pos h]

theorem length_of_truncateName {s t : GoStr} (h : truncateName s = some t) :
    t.length ≤ 220 := by
  unfold truncateName at h
  split_ifs at h with h1 h2 h3 <;>
    first
      | exact Option.noConfusion h
      | (injection h with h; subst h; first | exact h1 | exact length_hardCap _)

theorem replaceByte_fix {a b : Nat} {s : GoStr} (h : ∀ c ∈ s, c ≠ a) :
    replaceByte a b s = s := by
  induction s with
  | nil => rfl
  | cons x t ih =>
    have hx : ¬ x = a := h x (List.mem_cons_self _ _)
    have ht := ih (fun c hc => h c (List.mem_cons_of_mem _ hc))
    simp only [replaceByte, List.map_cons, if_neg hx]
    simp only [replaceByte] at ht
    rw [ht]

theorem replacerStep_fix {s : GoStr} (h : ∀ c ∈ s, replacerByte c = some c) :
    replacerStep s = s := by
  induction s with
  | nil => rfl
  | cons x t ih =>
    have ht := ih (fun c hc => h c (List.mem_cons_of_mem _ hc))
    simp only [replacerStep, List.filterMap_cons, h x (List.mem_cons_self _ _)]
    simp only [replacerStep] at ht
    rw [ht]

theorem dropWhile_fix {p : Nat → Bool} {s : GoStr}
    (h : ∀ a, s.head? = some a → p a = false) : s.dropWhile p = s := by
  cases s with
  | nil => rfl
  | cons x t => exact List.dropWhile_cons_of_neg (by simp [h x rfl])

theorem trimRightP_fix {p : Nat → Bool} {s : GoStr}
    (h : ∀ a, s.getLast? = some a → p a = false) : trimRightP p s = s := by
  unfold trimRightP
  rw [dropWhile_fix (p := p) (s := s.reverse), List.reverse_reverse]
  intro a ha
  rw [List.head?_reverse] at ha
  exact h a ha

theorem head?_mem {l : List Nat} {a : Nat} (h : l.head? = some a) : a ∈ l := by
  cases l with
  | nil => cases h
  | cons x t =>
    injection h with h
    exact h ▸ List.mem_cons_self _ _

theorem getLast?_mem {l : List Nat} {a : Nat} (h : l.getLast? = some a) : a ∈ l := by
  rw [← List.head?_reverse] at h
  exact List.mem_reverse.mp (head?_mem h)

theorem kept_not_control {a : Nat} (h : replacerByte a = some a) :
    31 < a ∧ a ≠ 127 := by
  unfold replacerByte at h
  split_ifs at h with h1 h2 h3 <;>
    first
      | exact Option.noConfusion h
      | (injection h with h; omega)

theorem sanitize_plain {n : Int} {s t : GoStr} (h : sanitize n s = some t)
    (hp : takesPlaceholder s = false) (hr : takesReserved s = false) :
    truncateName (cleanName s) = some t ∧
      ¬(t = [] ∨ t = [46] ∨ t = [46, 46]) ∧ isReservedBase t = false := by
  unfold sanitize at h
  unfold takesPlaceholder at hp
  unfold takesReserved at hr
  by_cases h1 : s = []
  · rw [if_pos h1] at hp; cases hp
  · rw [if_neg h1] at h hp hr
    cases htr : truncateName (cleanName s) with
    | none => rw [htr] at h; cases h
    | some u =>
      rw [htr] at h hp hr
      dsimp only at h hp hr
      by_cases h2 : u = [] ∨ u = [46] ∨ u = [46, 46]
      · rw [if_pos h2] at hp; cases hp
      · rw [if_neg h2] at h hp hr
        by_cases h3 : isReservedBase u
        · rw [h3] at hr; cases hr
        · rw [if_neg h3] at h
          injection h with h; subst h
          exact ⟨rfl, h2, by simp [h3]⟩

theorem cleanName_fix {t : GoStr} (hkept : ∀ c ∈ t, KeptByte c)
    (hh1 : t.head? ≠ some 32) (hh2 : t.head? ≠ some 46)
    (hl1 : t.getLast? ≠ some 32) (hl2 : t.getLast? ≠ some 46) :
    cleanName t = t := by
  have h47 : ∀ c ∈ t, c ≠ 47 := fun c hc => (hkept c hc).2.1
  have h92 : ∀ c ∈ t, c ≠ 92 := fun c hc => (hkept c hc).2.2
  have hrep : ∀ c ∈ t, replacerByte c = some c := fun c hc => (hkept c hc).1
  have e1 : replaceSeps t = t := by
    unfold replaceSeps
    rw [replaceByte_fix h47, replaceByte_fix h92]
  have e2 : replacerStep t = t := replacerStep_fix hrep
  have hhs : ∀ a, t.head? = some a → isSpaceByte a = false := by
    intro a ha
    have hctl := kept_not_control (hrep a (head?_mem ha))
    have h32 : a ≠ 32 := fun he => hh1 (he ▸ ha)
    simp only [isSpaceByte]
    simp only [decide_eq_false_iff_not]
    omega
  have hls : ∀ a, t.getLast? = some a → isSpaceByte a = false := by
    intro a ha
    have hctl := kept_not_control (hrep a (getLast?_mem ha))
    have h32 : a ≠ 32 := fun he => hl1 (he ▸ ha)
    simp only [isSpaceByte]
    simp only [decide_eq_false_iff_not]
    omega
  have hhd : ∀ a, t.head? = some a → (a == 46) = false := by
    intro a ha
    have h46 : a ≠ 46 := fun he => hh2 (he ▸ ha)
    simpa using h46
  have hld : ∀ a, t.getLast? = some a → (a == 46) = false := by
    intro a ha
    have h46 : a ≠ 46 := fun he => hl2 (he ▸ ha)
    simpa using h46
  have e3 : trimSpaceGo t = t := by
    unfold trimSpaceGo trimLeftP
    rw [dropWhile_fix hhs]
    exact trimRightP_fix hls
  have e4 : trimDots t = t := by
    unfold trimDots trimLeftP
    rw [dropWhile_fix hhd]
    exact trimRightP_fix hld
  unfold cleanName
  rw [e1, e2, e3, e4]

/-- C6 (amended): for every input that does not collide with the
reserved-name or empty/placeholder branches of `sanitize` and whose
sanitized result neither begins nor ends with a space or a dot, the
sanitizer is idempotent: applying `sanitize` to the output returns the
output unchanged (for any wall-clock values, which are unused off the
placeholder branch). -/
theorem sanitize_idempotent_off_branches (n m : Int) (s t : GoStr)
    (h : sanitize n s = some t)
    (hp : takesPlaceholder s = false) (hr : takesReserved s = false)
    (hh1 : t.head? ≠ some 32) (hh2 : t.head? ≠ some 46)
    (hl1 : t.getLast? ≠ some 32) (hl2 : t.getLast? ≠ some 46) :
    sanitize m t = some t := by
  obtain ⟨htr, hnp, hnr⟩ := sanitize_plain h hp hr
  have hkept : ∀ c ∈ t, KeptByte c := fun c hc =>
    kept_of_mem_afterReplacer (mem_cleanName (mem_of_truncateName htr hc))
  have hfix : cleanName t = t := cleanName_fix hkept hh1 hh2 hl1 hl2
  have hlen : t.length ≤ 220 := length_of_truncateName htr
  have ht_ne : ¬ t = [] := fun he => hnp (Or.inl he)
  unfold sanitize
  rw [if_neg ht_ne, hfix, truncateName_of_le hlen]
  dsimp only
  rw [if_neg hnp, if_neg (by simp [hnr])]

/-- C6 witness: a concrete run of the amended idempotence theorem; the
input has a path separator, sanitizes to a name off all special branches,
and re-sanitizing that name is the identity. -/
theorem sanitize_idempotent_off_branches_witness :
    sanitize 0 (strOf "a/b") = some (strOf "a_b") ∧
      sanitize 0 (strOf "a_b") = some (strOf "a_b") :=
  ⟨by decide,
   sanitize_idempotent_off_branches 0 0 (strOf "a/b") (strOf "a_b")
     (by decide) (by decide) (by decide) (by decide) (by decide)
     (by decide) (by decide)⟩

/-- C6 counterexample: the input made of the bytes of "ab ." avoids the
reserved-name and empty/placeholder branches, yet `sanitize` is not
idempotent on it: the first pass trims the trailing dot and exposes a
trailing space, which a second pass then trims (`sanitize` of "ab ."
yields "ab ", and `sanitize` of "ab " yields "ab"). -/
theorem sanitize_not_idempotent_cex :
    takesPlaceholder (strOf "ab .") = false ∧
      takesReserved (strOf "ab .") = false ∧
      (sanitize 0 (strOf "ab .")).bind (sanitize 0) ≠ sanitize 0 (strOf "ab .") := by
  decide

set_option maxRecDepth 10000 in
/-- C1: the claim that `sanitize` always returns a safe name fails: on the
231-byte input "a." followed by 229 further bytes, the extension seen by
the truncation step is 230 bytes long, `maxLen-len(ext)` is negative, and
the Go slice expression `base[:maxLen-len(ext)]` panics at run time
(modelled as `none`). -/
theorem sanitize_panics_on_long_extension :
    sanitize 0 (strOf "a." ++ List.replicate 229 98) = none := by
  decide

/-- `strings.Split` on the slash byte (`strings.Split(doc.MimeType, "/")`,
main.go line 403). -/
def splitSlash : GoStr → List GoStr
  | [] => [[]]
  | c :: r =>
    if c = 47 then [] :: splitSlash r
    else
      match splitSlash r with
      | [] => [[c]]
      | p :: ps => (c :: p) :: ps

/-- Cutting at the first semicolon (`strings.Index(cleanedPart, ";")` and
the slice up to it, main.go lines 407-409). -/
def cutSemi (s : GoStr) : GoStr := s.takeWhile (fun c => ¬ c == 59)

/-- The character-class test of `strings.ContainsAny(cleanedPart,
backslash-slash-colon-star-question-quote-angle-pipe-space)`, main.go
line 412. -/
def hostileByte (c : Nat) : Bool :=
  c = 47 ∨ c = 92 ∨ c = 58 ∨ c = 42 ∨ c = 63 ∨ c = 34 ∨ c = 60 ∨ c = 62 ∨
    c = 124 ∨ c = 32

/-- `strings.ContainsAny` over the hostile set. -/
def containsHostile (s : GoStr) : Bool := s.any hostileByte

/-- The MIME-derived extension of `filenameFromDocument` (main.go lines
402-415): default "bin"; with exactly two slash-separated parts and a
non-empty second part, the subtype is lower-cased, cut at the first
semicolon and trimmed of surrounding whitespace, and accepted when its
length is 1-9 and it has no hostile byte. -/
def extFromMime (mime : GoStr) : GoStr :=
  match splitSlash mime with
  | [_, b] =>
    if b = [] then strOf "bin"
    else if 0 < (trimSpaceGo (cutSemi (toLowerGo b))).length ∧
        (trimSpaceGo (cutSemi (toLowerGo b))).length < 10 ∧
        containsHostile (trimSpaceGo (cutSemi (toLowerGo b))) = false then
      trimSpaceGo (cutSemi (toLowerGo b))
    else strOf "bin"
  | _ => strOf "bin"

/-- A document attribute (`tg.DocumentAttributeClass`): only the filename
attribute matters to this program. -/
inductive DocAttr where
  | filenameAttr (name : GoStr)
  | otherAttr
deriving DecidableEq

/-- The fields of `tg.Document` that this program reads. -/
structure Doc where
  id : Int
  accessHash : Int
  fileRef : List Nat
  mime : GoStr
  attrs : List DocAttr
deriving DecidableEq

/-- The attribute loop of `filenameFromDocument` (main.go lines 394-399):
the first filename attribute with a non-empty name wins. -/
def firstFilenameAttr : List DocAttr → Option GoStr
  | [] => none
  | .filenameAttr f :: r => if f = [] then firstFilenameAttr r else some f
  | .otherAttr :: r => firstFilenameAttr r

/-- `filenameFromDocument` (main.go lines 393-419): the explicit filename
attribute when present and non-empty, else the id-dot-extension fallback;
either way the result goes through `sanitize`. -/
def filenameFromDocument (now : Int) (d : Doc) : Option GoStr :=
  match firstFilenameAttr d.attrs with
  | some f => sanitize now f
  | none => sanitize now (intToDec d.id ++ [46] ++ extFromMime d.mime)

/-- Modelling the words of the specification for C7: the subtype of the
MIME type, when the type splits into exactly two slash-separated parts
with a non-empty second part. -/
def mimeSubtype (mime : GoStr) : Option GoStr :=
  match splitSlash mime with
  | [_, b] => if b = [] then none else some b
  | _ => none

/-- The extension exactly as the claim words it (no whitespace trimming):
subtype lower-cased and stripped of semicolon-delimited parameters,
accepted only if 1-9 bytes long and free of hostile bytes, else "bin". -/
def extFromMimeClaim (mime : GoStr) : GoStr :=
  match mimeSubtype mime with
  | none => strOf "bin"
  | some b =>
    if 0 < (cutSemi (toLowerGo b)).length ∧ (cutSemi (toLowerGo b)).length < 10 ∧
        containsHostile (cutSemi (toLowerGo b)) = false then
      cutSemi (toLowerGo b)
    else strOf "bin"

/-- The extension as the claim words it, amended with the whitespace
trimming that the code performs between parameter-stripping and
validation. -/
def extFromMimeSpec (mime : GoStr) : GoStr :=
  match mimeSubtype mime with
  | none => strOf "bin"
  | some b =>
    if 0 < (trimSpaceGo (cutSemi (toLowerGo b))).length ∧
        (trimSpaceGo (cutSemi (toLowerGo b))).length < 10 ∧
        containsHostile (trimSpaceGo (cutSemi (toLowerGo b))) = false then
      trimSpaceGo (cutSemi (toLowerGo b))
    else strOf "bin"

/-- The raw name that the claim (as amended) predicts is fed to the
sanitizer: the first non-empty filename attribute, else
id-dot-spec-extension. -/
def claimRawName (d : Doc) : GoStr :=
  match firstFilenameAttr d.attrs with
  | some f => f
  | none => intToDec d.id ++ [46] ++ extFromMimeSpec d.mime

/-- The raw name exactly as the claim is written (no whitespace trimming
in the extension derivation). -/
def claimRawNameStrict (d : Doc) : GoStr :=
  match firstFilenameAttr d.attrs with
  | some f => f
  | none => intToDec d.id ++ [46] ++ extFromMimeClaim d.mime

theorem extFromMime_eq_spec (mime : GoStr) : extFromMime mime = extFromMimeSpec mime := by
  unfold extFromMime extFromMimeSpec mimeSubtype
  cases h : splitSlash mime with
  | nil => rfl
  | cons a l =>
    cases l with
    | nil => rfl
    | cons b l2 =>
      cases l2 with
      | nil =>
        dsimp only
        by_cases hb : b = []
        · rw [if_pos hb, if_pos hb]
        · rw [if_neg hb, if_neg hb]
      | cons c l3 => rfl

/-- C7 (amended): document filenames resolve in order - the first
non-empty explicit filename attribute, sanitized; otherwise the synthetic
id-dot-extension name, sanitized, where the extension is the MIME subtype
lower-cased, stripped of semicolon-delimited parameters and trimmed of
surrounding whitespace, accepted only if 1-9 bytes long and free of
path-hostile bytes, defaulting to "bin". -/
theorem filenameFromDocument_resolution (n : Int) (d : Doc) :
    filenameFromDocument n d = sanitize n (claimRawName d) := by
  unfold filenameFromDocument claimRawName
  cases h : firstFilenameAttr d.attrs with
  | none => rw [extFromMime_eq_spec]
  | some f => rfl

/-- C7 counterexample: for a document with no filename attribute and MIME
type "application/tar " (trailing space), the code trims the subtype and
produces "5.tar", while the claim as written rejects the space-bearing
subtype and predicts "5.bin". -/
def docTarSpace : Doc := ⟨5, 0, [], strOf "application/tar ", []⟩

theorem filenameFromDocument_claim_cex :
    filenameFromDocument 0 docTarSpace = some (strOf "5.tar") ∧
      sanitize 0 (claimRawNameStrict docTarSpace) = some (strOf "5.bin") ∧
      filenameFromDocument 0 docTarSpace ≠ sanitize 0 (claimRawNameStrict docTarSpace) := by
  decide

/-- The resource location that `inputLocation` returns
(`tg.InputDocumentFileLocation` or `tg.InputPhotoFileLocation`). -/
inductive Loc where
  | docLoc (id accessHash : Int) (fileRef : List Nat)
  | photoLoc (id accessHash : Int) (fileRef : List Nat) (thumb : GoStr)
deriving DecidableEq

/-- The failure signals of `inputLocation`: the designed skip signal
`unsupportedMedia` (`errUnsupportedMedia`, main.go line 289) and the
formatted errors for empty payloads and unresolvable photo sizes. -/
inductive LocErr where
  | unsupportedMedia
  | invalidDocument
  | invalidPhoto
  | noSize
deriving DecidableEq

/-- A photo size variant (`tg.PhotoSizeClass`): `size` and `progressive`
carry a tag and dimensions; `cached` and `stripped` are inline previews;
`otherSize` stands for the remaining variants that the default branch of
the type switch skips. -/
inductive SizeVariant where
  | size (t : GoStr) (w h : Int)
  | progressive (t : GoStr) (w h : Int)
  | cached (t : GoStr)
  | stripped (t : GoStr)
  | otherSize
deriving DecidableEq

/-- The fields of `tg.Photo` that this program reads. -/
structure Photo where
  id : Int
  accessHash : Int
  fileRef : List Nat
  sizes : List SizeVariant
deriving DecidableEq

/-- The mutable selection state of the size loop in `inputLocation`
(main.go lines 328-332): the representative size, its tag, and the
largest dimension seen. -/
structure SelSt where
  biggest : Option (GoStr × Int × Int)
  biggestType : GoStr
  largestDim : Int
deriving DecidableEq

/-- One iteration of the size loop (main.go lines 334-365): `cached`,
`stripped` and unknown variants are skipped; `size` and `progressive`
update the state when `max w h` strictly exceeds the largest dimension
seen so far. -/
def selStep (st : SelSt) (v : SizeVariant) : SelSt :=
  match v with
  | .size t w h => if max w h > st.largestDim then ⟨some (t, w, h), t, max w h⟩ else st
  | .progressive t w h =>
    if max w h > st.largestDim then ⟨some (t, w, h), t, max w h⟩ else st
  | .cached _ => st
  | .stripped _ => st
  | .otherSize => st

/-- The whole size loop from the zero-initialised state. -/
def selectBest (sizes : List SizeVariant) : SelSt := sizes.foldl selStep ⟨none, [], 0⟩

/-- The photo arm of `inputLocation` (main.go lines 317-384): fails when
no size was selected or the selected tag is empty, else returns the photo
location and the name photoID-underscore-tag-dot-jpg. -/
def photoLocate (p : Photo) : Except LocErr (Loc × GoStr) :=
  match (selectBest p.sizes).biggest with
  | none => .error .noSize
  | some _ =>
    if (selectBest p.sizes).biggestType = [] then .error .noSize
    else
      .ok (.photoLoc p.id p.accessHash p.fileRef (selectBest p.sizes).biggestType,
        intToDec p.id ++ [95] ++ (selectBest p.sizes).biggestType ++ strOf ".jpg")

/-- The tag-and-dimension reading of one variant: the claim calls `size`
and `progressive` the resolvable variants, with `dim = max w h`. -/
def sizeEntry : SizeVariant → Option (GoStr × Int)
  | .size t w h => some (t, max w h)
  | .progressive t w h => some (t, max w h)
  | _ => none

/-- The resolvable entries of a size list, in order. -/
def entryDims (sizes : List SizeVariant) : List (GoStr × Int) := sizes.filterMap sizeEntry

/-- The largest dimension of an entry list (zero when empty, matching the
zero-initialised loop state). -/
def maxDim : List (GoStr × Int) → Int
  | [] => 0
  | e :: r => max e.2 (maxDim r)

/-- The first entry whose dimension strictly exceeds the threshold and is
not exceeded later: the first-seen strict maximum above the threshold. -/
def firstBestAbove (c : Int) : List (GoStr × Int) → Option (GoStr × Int)
  | [] => none
  | e :: r => if c < e.2 ∧ maxDim r ≤ e.2 then some e else firstBestAbove c r

/-- The selector as the specification words it (amended): the first-seen
entry of strictly largest positive dimension among the resolvable
variants, demoted to a failure when its tag is empty. -/
def specSelectTag (sizes : List SizeVariant) : Option GoStr :=
  match firstBestAbove 0 (entryDims sizes) with
  | none => none
  | some e => if e.1 = [] then none else some e.1

theorem firstBestAbove_none_of_le {c : Int} {es : List (GoStr × Int)}
    (h : maxDim es ≤ c) : firstBestAbove c es = none := by
  induction es with
  | nil => rfl
  | cons e r ih =>
    simp only [maxDim, max_le_iff] at h
    unfold firstBestAbove
    rw [if_neg (fun hc => absurd hc.1 (not_lt.mpr h.1))]
    exact ih h.2

theorem firstBestAbove_shift {c d : Int} {es : List (GoStr × Int)}
    (hcd : c ≤ d) (hlt : d < maxDim es) :
    firstBestAbove c es = firstBestAbove d es := by
  induction es with
  | nil => rfl
  | cons e r ih =>
    unfold firstBestAbove
    by_cases he : d < e.2
    · have hce : c < e.2 := lt_of_le_of_lt hcd he
      by_cases hm : maxDim r ≤ e.2
      · rw [if_pos ⟨hce, hm⟩, if_pos ⟨he, hm⟩]
      · rw [if_neg (fun hc => hm hc.2), if_neg (fun hc => hm hc.2)]
        exact ih (lt_trans he (not_le.mp hm))
    · have he2 : e.2 ≤ d := not_lt.mp he
      have hmr : d < maxDim r := by
        simp only [maxDim] at hlt
        rcases lt_max_iff.mp hlt with h | h
        · exact absurd h he
        · exact h
      have hc2 : ¬ maxDim r ≤ e.2 := fun hmm => absurd hmr (not_lt.mpr (le_trans hmm he2))
      rw [if_neg (fun hc => hc2 hc.2), if_neg (fun hc => absurd hc.1 he)]
      exact ih hmr

theorem firstBestAbove_cons (c : Int) (e : GoStr × Int) (r : List (GoStr × Int)) :
    firstBestAbove c (e :: r) =
      if c < e.2 ∧ maxDim r ≤ e.2 then some e else firstBestAbove c r := rfl

theorem firstBestAbove_ne_none {c : Int} {es : List (GoStr × Int)}
    (hc : 0 ≤ c) (h : c < maxDim es) : firstBestAbove c es ≠ none := by
  induction es with
  | nil =>
    simp only [maxDim] at h
    omega
  | cons e r ih =>
    rw [firstBestAbove_cons]
    by_cases hcond : c < e.2 ∧ maxDim r ≤ e.2
    · rw [if_pos hcond]
      exact fun hx => Option.noConfusion hx
    · rw [if_neg hcond]
      refine ih ?_
      simp only [maxDim] at h
      rcases lt_max_iff.mp h with h2 | h2
      · rcases not_and_or.mp hcond with h3 | h3
        · exact absurd h2 h3
        · exact lt_of_lt_of_le h2 (le_of_not_le h3)
      · exact h2

theorem selFold_spec (sizes : List SizeVariant) (st : SelSt)
    (hst : 0 ≤ st.largestDim) :
    match firstBestAbove st.largestDim (entryDims sizes) with
    | none => sizes.foldl selStep st = st
    | some e =>
      (sizes.foldl selStep st).biggestType = e.1 ∧
        (sizes.foldl selStep st).largestDim = e.2 ∧
        (sizes.foldl selStep st).biggest.isSome = true := by
  induction sizes generalizing st with
  | nil => simp [entryDims, firstBestAbove]
  | cons v rest ih =>
    cases hv : sizeEntry v with
    | none =>
      have hstep : selStep st v = st := by
        cases v <;> simp_all [sizeEntry, selStep]
      have hent : entryDims (v :: rest) = entryDims rest := by
        simp [entryDims, List.filterMap_cons, hv]
      rw [List.foldl_cons, hstep, hent]
      exact ih st hst
    | some e =>
      obtain ⟨t, dd⟩ := e
      have hent : entryDims (v :: rest) = (t, dd) :: entryDims rest := by
        simp [entryDims, List.filterMap_cons, hv]
      rw [List.foldl_cons, hent]
      by_cases hd : st.largestDim < dd
      · have hstep : (selStep st v).biggestType = t ∧ (selStep st v).largestDim = dd ∧
            (selStep st v).biggest.isSome = true := by
          cases v with
          | size t0 w0 h0 =>
            simp only [sizeEntry, Option.some.injEq, Prod.mk.injEq] at hv
            obtain ⟨rfl, rfl⟩ := hv
            dsimp only [selStep]
            rw [if_pos hd]
            exact ⟨rfl, rfl, rfl⟩
          | progressive t0 w0 h0 =>
            simp only [sizeEntry, Option.some.injEq, Prod.mk.injEq] at hv
            obtain ⟨rfl, rfl⟩ := hv
            dsimp only [selStep]
            rw [if_pos hd]
            exact ⟨rfl, rfl, rfl⟩
          | cached t0 => simp [sizeEntry] at hv
          | stripped t0 => simp [sizeEntry] at hv
          | otherSize => simp [sizeEntry] at hv
        have hdd : (0 : Int) ≤ dd := le_trans hst (le_of_lt hd)
        have hst2 : 0 ≤ (selStep st v).largestDim := by
          rw [hstep.2.1]
          exact hdd
        by_cases hm : maxDim (entryDims rest) ≤ dd
        · have houter : firstBestAbove st.largestDim ((t, dd) :: entryDims rest) =
              some (t, dd) := by
            rw [firstBestAbove_cons, if_pos ⟨hd, hm⟩]
          rw [houter]
          have hrest : firstBestAbove (selStep st v).largestDim (entryDims rest) = none := by
            rw [hstep.2.1]
            exact firstBestAbove_none_of_le hm
          have hih := ih (selStep st v) hst2
          rw [hrest] at hih
          dsimp only
          rw [hih]
          exact hstep
        · have hmr : dd < maxDim (entryDims rest) := not_le.mp hm
          have houter : firstBestAbove st.largestDim ((t, dd) :: entryDims rest) =
              firstBestAbove st.largestDim (entryDims rest) := by
            rw [firstBestAbove_cons, if_neg (fun hc => hm hc.2)]
          rw [houter, firstBestAbove_shift (le_of_lt hd) hmr]
          have hih := ih (selStep st v) hst2
          rw [hstep.2.1] at hih
          cases hfb2 : firstBestAbove dd (entryDims rest) with
          | none => exact absurd hfb2 (firstBestAbove_ne_none hdd hmr)
          | some e2 =>
            rw [hfb2] at hih
            exact hih
      · have hstep : selStep st v = st := by
          cases v with
          | size t0 w0 h0 =>
            simp only [sizeEntry, Option.some.injEq, Prod.mk.injEq] at hv
            obtain ⟨rfl, rfl⟩ := hv
            dsimp only [selStep]
            rw [if_neg hd]
          | progressive t0 w0 h0 =>
            simp only [sizeEntry, Option.some.injEq, Prod.mk.injEq] at hv
            obtain ⟨rfl, rfl⟩ := hv
            dsimp only [selStep]
            rw [if_neg hd]
          | cached t0 => simp [sizeEntry] at hv
          | stripped t0 => simp [sizeEntry] at hv
          | otherSize => simp [sizeEntry] at hv
        have houter : firstBestAbove st.largestDim ((t, dd) :: entryDims rest) =
            firstBestAbove st.largestDim (entryDims rest) := by
          rw [firstBestAbove_cons, if_neg (fun hc => hd hc.1)]
        rw [hstep, houter]
        exact ih st hst

theorem photoLocate_spec (p : Photo) :
    photoLocate p =
      match specSelectTag p.sizes with
      | none => Except.error LocErr.noSize
      | some tag =>
        Except.ok (Loc.photoLoc p.id p.accessHash p.fileRef tag,
          intToDec p.id ++ [95] ++ tag ++ strOf ".jpg") := by
  have L := selFold_spec p.sizes ⟨none, [], 0⟩ (le_refl 0)
  dsimp only at L
  unfold photoLocate specSelectTag selectBest
  cases hfb : firstBestAbove (0 : Int) (entryDims p.sizes) with
  | none =>
    rw [hfb] at L
    rw [L]
  | some e =>
    rw [hfb] at L
    obtain ⟨h1, h2, h3⟩ := L
    obtain ⟨x, hx⟩ := Option.isSome_iff_exists.mp h3
    rw [hx, h1]
    dsimp only
    by_cases he : e.1 = []
    · rw [if_pos he, if_pos he]
    · rw [if_neg he, if_neg he]

deriving instance DecidableEq for Except

/-- A message media payload (`tg.MessageMediaClass`): a document (absent
or empty modelled as `none`), a photo (likewise), or any other kind,
which the default branch of `inputLocation` rejects with the unsupported
signal. -/
inductive Media where
  | document (d : Option Doc)
  | photo (p : Option Photo)
  | otherMedia
deriving DecidableEq

/-- `inputLocation` (main.go lines 293-390): extracts a location and a
candidate filename from the media payload.  The outer `Option` models a
run-time panic propagating out of `sanitize`. -/
def inputLocation (now : Int) (md : Media) : Option (Except LocErr (Loc × GoStr)) :=
  match md with
  | .document none => some (.error .invalidDocument)
  | .document (some d) =>
    match filenameFromDocument now d with
    | none => none
    | some name => some (.ok (.docLoc d.id d.accessHash d.fileRef, name))
  | .photo none => some (.error .invalidPhoto)
  | .photo (some p) => some (photoLocate p)
  | .otherMedia => some (.error .unsupportedMedia)

/-- C4 (amended): for every non-empty photo the locator skips cached,
stripped and unknown size variants, reads `dim = max w h` from the size
and progressive variants, and selects the first-seen entry of strictly
largest dimension among the variants with positive dimension; it fails
with the no-resolvable-size error when no variant has positive dimension
or when the selected tag is empty, and on success the filename is
photoID-underscore-tag-dot-jpg. -/
theorem inputLocation_photo_selection (n : Int) (p : Photo) :
    inputLocation n (Media.photo (some p)) =
      some (match specSelectTag p.sizes with
            | none => Except.error LocErr.noSize
            | some tag =>
              Except.ok (Loc.photoLoc p.id p.accessHash p.fileRef tag,
                intToDec p.id ++ [95] ++ tag ++ strOf ".jpg")) := by
  unfold inputLocation
  dsimp only
  rw [photoLocate_spec]

/-- C4 counterexample: a photo with the single resolvable size variant of
tag "m" and zero dimensions.  The claim as written selects it (it is the
entry of strictly largest dimension among the resolvable variants), but
the code never selects an entry whose dimension does not strictly exceed
the zero-initialised maximum, and fails with the no-resolvable-size
error instead. -/
def photoZeroDim : Photo := ⟨7, 0, [], [SizeVariant.size (strOf "m") 0 0]⟩

theorem photo_zero_dim_cex :
    entryDims photoZeroDim.sizes = [(strOf "m", 0)] ∧
      inputLocation 0 (Media.photo (some photoZeroDim)) =
        some (Except.error LocErr.noSize) := by
  decide

/-- A peer reference (`tg.PeerClass`). -/
inductive Peer where
  | user (id : Int)
  | chat (id : Int)
  | channel (id : Int)
deriving DecidableEq

/-- The fields of `tg.Message` that `saveMedia` reads. -/
structure Msg where
  id : Int
  date : Int
  fromID : Option Peer
  peerID : Option Peer
  media : Option Media
deriving DecidableEq

/-- The sender-derived subdirectory of `saveMedia` (main.go lines
238-250): the sender user id when the sender is a user, else the peer
user id, else chat-prefixed or channel-prefixed ids, else the literal
unknown-sender fallback. -/
def subDirName (m : Msg) : GoStr :=
  match m.fromID with
  | some (.user u) => intToDec u
  | _ =>
    match m.peerID with
    | some (.user u) => intToDec u
    | some (.chat c) => strOf "chat_" ++ intToDec c
    | some (.channel c) => strOf "channel_" ++ intToDec c
    | _ => strOf "unknown_sender"

/-- Calendar conversion for the timestamp prefix: days since the Unix
epoch to a proleptic Gregorian date (the standard era-based algorithm).
The model renders `time.Unix(sec, 0).Format` in UTC; the source formats
in the local timezone, which only shifts which wall-clock digits appear
and is fixed for a given host. -/
def civilFromDays (z0 : Int) : Int × Nat × Nat :=
  let z : Int := z0 + 719468
  let era : Int := z.fdiv 146097
  let doe : Nat := (z - era * 146097).toNat
  let yoe : Nat := (doe - doe / 1460 + doe / 36524 - doe / 146096) / 365
  let doy : Nat := doe - (365 * yoe + yoe / 4 - yoe / 100)
  let mp : Nat := (5 * doy + 2) / 153
  let d : Nat := doy - (153 * mp + 2) / 5 + 1
  let m : Nat := if mp < 10 then mp + 3 else mp - 9
  (((yoe : Int) + era * 400) + (if m ≤ 2 then 1 else 0), m, d)

/-- Zero-padding to two digits. -/
def pad2 (n : Nat) : GoStr := if n < 10 then [48, 48 + n] else natToDec n

/-- Zero-padding to four digits. -/
def pad4 (n : Nat) : GoStr :=
  List.replicate (4 - (natToDec n).length) 48 ++ natToDec n

/-- The timestamp prefix `messageTime.Format("20060102_150405")`
(main.go lines 233-234), rendered in UTC. -/
def formatTs (sec : Int) : GoStr :=
  pad4 (civilFromDays (sec.fdiv 86400)).1.toNat ++
    pad2 (civilFromDays (sec.fdiv 86400)).2.1 ++
    pad2 (civilFromDays (sec.fdiv 86400)).2.2 ++
    [95] ++
    pad2 ((sec.emod 86400).toNat / 3600) ++
    pad2 ((sec.emod 86400).toNat % 3600 / 60) ++
    pad2 ((sec.emod 86400).toNat % 60)

/-- The empty-filename fallback of `saveMedia` (main.go lines 228-231):
messageID-underscore-nanoseconds-dot-dat when the candidate is empty,
else the candidate unchanged. -/
def resolvedName (msgID now : Int) (f : GoStr) : GoStr :=
  if f = [] then intToDec msgID ++ [95] ++ intToDec now ++ strOf ".dat" else f

/-- The destination path of `saveMedia` (main.go lines 233-259):
base directory, sender subdirectory, and the timestamp-prefixed leaf.
`filepath.Join` is modelled as slash concatenation; the cleaning it
performs is the identity on the separator-free components built here. -/
def destPathOf (m : Msg) (leaf : GoStr) : GoStr :=
  strOf "media_backup" ++ [47] ++ subDirName m ++ [47] ++
    formatTs m.date ++ [95] ++ leaf

/-- The destination path as a function of the candidate filename produced
by the locator (empty candidates go through the wall-clock fallback). -/
def destPathFull (m : Msg) (candidate : GoStr) (now : Int) : GoStr :=
  destPathOf m (resolvedName m.id now candidate)

/-- What a path names on disk: nothing, a regular file, or a directory
(`os.Stat` succeeding means file or dir). -/
inductive FsEntry where
  | missing
  | file
  | dir
deriving DecidableEq

/-- The filesystem modelled as an association list from paths to entries;
later writes shadow earlier ones. -/
abbrev Fs := List (GoStr × FsEntry)

/-- The `os.Stat` check of `saveMedia` (main.go line 262): what the path
currently names. -/
def fsStat (fs : Fs) (p : GoStr) : FsEntry :=
  match fs.find? (fun e => e.1 == p) with
  | some e => e.2
  | none => .missing

/-- The outcome of one `saveMedia` call, as the caller observes it:
the unsupported-media skip (a nil return), a location failure (non-nil
error), the exists-already skip (nil), a completed download (nil), or a
failed download (non-nil error). -/
inductive SaveResult where
  | skippedUnsupported
  | failedLocate (e : LocErr)
  | alreadyExists
  | saved
  | failedDownload
deriving DecidableEq

/-- `true` exactly when `saveMedia` returns a non-nil error to the scan
loop (main.go lines 177-183). -/
def SaveResult.isFailure : SaveResult → Bool
  | .failedLocate _ => true
  | .failedDownload => true
  | _ => false

/-- `saveMedia` (main.go lines 211-286) over the modelled filesystem.
`dlOk` is the outcome of the external fetch; the returned boolean records
whether the fetch primitive was invoked.  Directory creation is treated
as always succeeding; a download failure removes the partially written
destination (`os.Remove`, line 278), modelled as a shadowing missing
entry.  The outer `Option` models a panic propagating from `sanitize`. -/
def saveMedia (fs : Fs) (dlOk : Bool) (now : Int) (m : Msg) (md : Media) :
    Option (SaveResult × Fs × Bool) :=
  match inputLocation now md with
  | none => none
  | some (.error .unsupportedMedia) => some (.skippedUnsupported, fs, false)
  | some (.error e) => some (.failedLocate e, fs, false)
  | some (.ok (_, f0)) =>
    if fsStat fs (destPathFull m f0 now) ≠ FsEntry.missing then
      some (.alreadyExists, fs, false)
    else if dlOk then
      some (.saved, (destPathFull m f0 now, FsEntry.file) :: fs, true)
    else
      some (.failedDownload, (destPathFull m f0 now, FsEntry.missing) :: fs, true)

/-- The deleted message inside a deletion event
(`tg.ChannelAdminLogEventActionDeleteMessage.Message`): a content message
or a service message. -/
inductive DelMessage where
  | contentMessage (m : Msg)
  | serviceMessage (id : Int)
deriving DecidableEq

/-- An admin log event action: a message deletion or any other action,
which the scan loop skips. -/
inductive LogAction where
  | deleteMessage (dm : DelMessage)
  | otherAction
deriving DecidableEq

/-- One admin log event (`tg.ChannelAdminLogEvent`): its id is the
pagination cursor value. -/
structure AdminEvent where
  id : Int
  action : LogAction
deriving DecidableEq

/-- The per-page scan state of the main loop (main.go lines 137-140 and
169-190): the cursor, the success counter, and the recorded outcomes of
the processed candidates. -/
structure ScanState where
  maxID : Int
  total : Nat
  outcomes : List SaveResult
deriving DecidableEq

/-- The filter of the scan loop body (main.go lines 172-189): an event
yields a candidate message exactly when it is a deletion of a content
message that carries media. -/
def eventCandidate (ev : AdminEvent) : Option Msg :=
  match ev.action with
  | .deleteMessage (.contentMessage m) => if m.media.isSome then some m else none
  | _ => none

/-- One iteration of the scan loop (main.go lines 169-190): the cursor is
set to the event id first, unconditionally; a candidate message is then
handed to the handler, a failure is only recorded (logged) and a
non-failure bumps the counter.  `handle` abstracts `saveMedia` together
with the external fetch, so the lemmas below hold for every possible
per-message outcome. -/
def stepEvent (handle : Msg → SaveResult) (st : ScanState) (ev : AdminEvent) : ScanState :=
  match eventCandidate ev with
  | some m =>
    { maxID := ev.id,
      total := if (handle m).isFailure then st.total else st.total + 1,
      outcomes := st.outcomes ++ [handle m] }
  | none => { st with maxID := ev.id }

/-- One page of events through the scan loop. -/
def processPage (handle : Msg → SaveResult) (st : ScanState)
    (evs : List AdminEvent) : ScanState :=
  evs.foldl (stepEvent handle) st

theorem stepEvent_maxID (handle : Msg → SaveResult) (st : ScanState) (ev : AdminEvent) :
    (stepEvent handle st ev).maxID = ev.id := by
  unfold stepEvent
  cases eventCandidate ev <;> rfl

theorem processPage_outcomes (handle : Msg → SaveResult) (evs : List AdminEvent)
    (st : ScanState) :
    (processPage handle st evs).outcomes =
      st.outcomes ++ (evs.filterMap eventCandidate).map handle := by
  induction evs generalizing st with
  | nil => simp [processPage]
  | cons ev rest ih =>
    rw [processPage, List.foldl_cons, List.filterMap_cons]
    cases hc : eventCandidate ev with
    | none =>
      have hstep : stepEvent handle st ev = { st with maxID := ev.id } := by
        unfold stepEvent
        rw [hc]
      rw [← processPage, ih, hstep]
    | some m =>
      have hstep : stepEvent handle st ev =
          { maxID := ev.id,
            total := if (handle m).isFailure then st.total else st.total + 1,
            outcomes := st.outcomes ++ [handle m] } := by
        unfold stepEvent
        rw [hc]
      rw [← processPage, ih, hstep]
      simp

/-- C3: the scan loop advances the cursor to each event id before any
processing of that event, and after a page the cursor equals the id of
the last event of the page, for every possible per-event outcome (the
handler is universally quantified, so failed extractions or downloads
cannot stall the cursor). -/
theorem scan_cursor_tracks_last_event :
    (∀ (handle : Msg → SaveResult) (st : ScanState) (ev : AdminEvent),
        (stepEvent handle st ev).maxID = ev.id) ∧
      (∀ (handle : Msg → SaveResult) (st : ScanState) (evs : List AdminEvent)
          (ev : AdminEvent),
        (processPage handle st (evs ++ [ev])).maxID = ev.id) := by
  refine ⟨stepEvent_maxID, ?_⟩
  intro handle st evs ev
  rw [processPage, List.foldl_append, List.foldl_cons, List.foldl_nil]
  exact stepEvent_maxID handle _ ev

/-- C5: a media payload that is neither a document nor a photo makes the
locator fail with the designed unsupported-media signal; `saveMedia`
turns that signal into a successful no-op skip (a nil return with the
filesystem untouched and the fetch primitive not invoked, counted as a
non-failure by the loop); and the scan records one outcome for every
candidate of a page whatever each outcome is, so no single failure can
abort the page. -/
theorem unsupported_media_skips :
    (∀ (n : Int), inputLocation n Media.otherMedia =
        some (Except.error LocErr.unsupportedMedia)) ∧
      (∀ (fs : Fs) (dlOk : Bool) (n : Int) (m : Msg),
        saveMedia fs dlOk n m Media.otherMedia =
          some (SaveResult.skippedUnsupported, fs, false)) ∧
      SaveResult.skippedUnsupported.isFailure = false ∧
      (∀ (handle : Msg → SaveResult) (st : ScanState) (evs : List AdminEvent),
        (processPage handle st evs).outcomes =
          st.outcomes ++ (evs.filterMap eventCandidate).map handle) := by
  refine ⟨fun n => rfl, fun fs dlOk n m => rfl, rfl, ?_⟩
  intro handle st evs
  exact processPage_outcomes handle evs st

/-- C2 (amended): the destination path is a function of the sender-or-peer
identity, the message timestamp and the candidate filename whenever the
candidate is non-empty; the wall-clock reading cannot influence it. -/
theorem destPath_deterministic_of_nonempty (m : Msg) (candidate : GoStr)
    (h : candidate ≠ []) (n1 n2 : Int) :
    destPathFull m candidate n1 = destPathFull m candidate n2 := by
  unfold destPathFull resolvedName
  rw [if_neg h, if_neg h]

/-- C2 witness: the amended determinism theorem applied to a concrete
message and candidate under two different wall-clock readings. -/
theorem destPath_deterministic_of_nonempty_witness :
    destPathFull ⟨1, 0, some (Peer.user 42), none, none⟩ (strOf "x.png") 1 =
      destPathFull ⟨1, 0, some (Peer.user 42), none, none⟩ (strOf "x.png") 2 :=
  destPath_deterministic_of_nonempty ⟨1, 0, some (Peer.user 42), none, none⟩
    (strOf "x.png") (by decide) 1 2

/-- C2 counterexample: with an empty candidate filename the fallback leaf
embeds the wall-clock nanosecond reading, so re-deriving the destination
path for the same message and candidate across two runs yields two
different paths. -/
theorem destPath_empty_candidate_cex :
    destPathFull ⟨1, 0, some (Peer.user 42), none, none⟩ [] 1 ≠
      destPathFull ⟨1, 0, some (Peer.user 42), none, none⟩ [] 2 := by
  decide

theorem sanitize_some_ne_nil {n : Int} {s y : GoStr} (h : sanitize n s = some y) :
    y ≠ [] := by
  unfold sanitize at h
  split_ifs at h with h1
  · injection h with h
    subst h
    decide
  · cases htr : truncateName (cleanName s) with
    | none => rw [htr] at h; cases h
    | some t =>
      rw [htr] at h
      dsimp only at h
      split_ifs at h with h2 h3
      · injection h with h
        subst h
        intro he
        exact absurd (List.append_eq_nil.mp he).1 (by decide)
      · injection h with h
        subst h
        exact fun he => List.noConfusion he
      · injection h with h
        subst h
        exact fun he => h2 (Or.inl he)

theorem filenameFromDocument_some_ne_nil {n : Int} {d : Doc} {y : GoStr}
    (h : filenameFromDocument n d = some y) : y ≠ [] := by
  unfold filenameFromDocument at h
  cases hfa : firstFilenameAttr d.attrs with
  | none =>
    rw [hfa] at h
    exact sanitize_some_ne_nil h
  | some f =>
    rw [hfa] at h
    exact sanitize_some_ne_nil h

/-- C10: every candidate filename produced by the locator (non-empty
document or photo with a resolvable size) is non-empty, so the
empty-filename fallback branch of the save path leaves the candidate
unchanged and is unreachable for locator-produced media. -/
theorem locator_filename_nonempty (n : Int) (md : Media) (loc : Loc) (f : GoStr)
    (h : inputLocation n md = some (Except.ok (loc, f))) :
    f ≠ [] ∧ ∀ (msgID now2 : Int), resolvedName msgID now2 f = f := by
  have hf : f ≠ [] := by
    unfold inputLocation at h
    cases md with
    | document d =>
      cases d with
      | none =>
        dsimp only at h
        injection h with h
        exact Except.noConfusion h
      | some doc =>
        dsimp only at h
        cases hfd : filenameFromDocument n doc with
        | none => rw [hfd] at h; cases h
        | some name =>
          rw [hfd] at h
          dsimp only at h
          injection h with h
          injection h with h
          cases h
          exact filenameFromDocument_some_ne_nil hfd
    | photo p =>
      cases p with
      | none =>
        dsimp only at h
        injection h with h
        exact Except.noConfusion h
      | some ph =>
        dsimp only at h
        injection h with h
        unfold photoLocate at h
        cases hb : (selectBest ph.sizes).biggest with
        | none =>
          rw [hb] at h
          exact Except.noConfusion h
        | some x =>
          rw [hb] at h
          dsimp only at h
          split_ifs at h with ht <;>
            first
              | exact Except.noConfusion h
              | (injection h with h
                 cases h
                 intro he
                 exact absurd (List.append_eq_nil.mp he).2 (by decide))
    | otherMedia =>
      dsimp only at h
      injection h with h
      exact Except.noConfusion h
  refine ⟨hf, fun a b => ?_⟩
  unfold resolvedName
  rw [if_neg hf]

/-- C10 witness: a concrete document with no filename attribute and MIME
type image-slash-png yields the candidate "3.png", which is non-empty and
passes the fallback branch unchanged. -/
theorem locator_filename_nonempty_witness :
    strOf "3.png" ≠ [] ∧ resolvedName 1 5 (strOf "3.png") = strOf "3.png" :=
  ⟨(locator_filename_nonempty 0 (Media.document (some ⟨3, 0, [], strOf "image/png", []⟩))
      (Loc.docLoc 3 0 []) (strOf "3.png") (by decide)).1,
   (locator_filename_nonempty 0 (Media.document (some ⟨3, 0, [], strOf "image/png", []⟩))
      (Loc.docLoc 3 0 []) (strOf "3.png") (by decide)).2 1 5⟩

/-- C8: when the computed destination path already names an existing
regular file, `saveMedia` reports the exists-already skip, does not
invoke the fetch primitive, and leaves the filesystem unchanged. -/
theorem existing_file_skips_fetch (fs : Fs) (dlOk : Bool) (n : Int) (m : Msg)
    (md : Media) (loc : Loc) (f : GoStr)
    (hloc : inputLocation n md = some (Except.ok (loc, f)))
    (hfs : fsStat fs (destPathFull m f n) = FsEntry.file) :
    saveMedia fs dlOk n m md = some (SaveResult.alreadyExists, fs, false) := by
  unfold saveMedia
  rw [hloc]
  dsimp only
  rw [if_pos (by rw [hfs]; exact fun hx => FsEntry.noConfusion hx)]

/-- C8 witness: a concrete filesystem already holding a regular file at
the computed path makes `saveMedia` skip with the filesystem returned
untouched and the fetch flag false. -/
theorem existing_file_skips_fetch_witness :
    saveMedia
        [(destPathFull ⟨1, 0, some (Peer.user 42), none, none⟩ (strOf "3.png") 0,
          FsEntry.file)] true 0 ⟨1, 0, some (Peer.user 42), none, none⟩
        (Media.document (some ⟨3, 0, [], strOf "image/png", []⟩)) =
      some (SaveResult.alreadyExists,
        [(destPathFull ⟨1, 0, some (Peer.user 42), none, none⟩ (strOf "3.png") 0,
          FsEntry.file)], false) :=
  existing_file_skips_fetch _ true 0 _ _ (Loc.docLoc 3 0 []) (strOf "3.png")
    (by decide) (by decide)

/-- C9: when the external fetch fails, `saveMedia` removes the
partially-written destination (the path reads as missing afterwards),
reports a failure that the scan loop records as a warning only, and the
scan keeps recording an outcome for every remaining candidate of the
page. -/
theorem failed_download_cleanup (fs : Fs) (n : Int) (m : Msg) (md : Media)
    (loc : Loc) (f : GoStr)
    (hloc : inputLocation n md = some (Except.ok (loc, f)))
    (hfs : fsStat fs (destPathFull m f n) = FsEntry.missing) :
    saveMedia fs false n m md =
        some (SaveResult.failedDownload,
          (destPathFull m f n, FsEntry.missing) :: fs, true) ∧
      fsStat ((destPathFull m f n, FsEntry.missing) :: fs) (destPathFull m f n) =
        FsEntry.missing ∧
      SaveResult.failedDownload.isFailure = true ∧
      (∀ (handle : Msg → SaveResult) (st : ScanState) (evs : List AdminEvent),
        (processPage handle st evs).outcomes =
          st.outcomes ++ (evs.filterMap eventCandidate).map handle) := by
  refine ⟨?_, ?_, rfl, fun handle st evs => processPage_outcomes handle evs st⟩
  · unfold saveMedia
    rw [hloc]
    dsimp only
    rw [if_neg (fun hx => hx hfs), if_neg (fun hx => Bool.noConfusion hx)]
  · simp [fsStat]

/-- C9 witness: on an empty filesystem with a failing fetch, the concrete
document save reports the failure and leaves the destination missing. -/
theorem failed_download_cleanup_witness :
    saveMedia [] false 0 ⟨1, 0, some (Peer.user 42), none, none⟩
        (Media.document (some ⟨3, 0, [], strOf "image/png", []⟩)) =
      some (SaveResult.failedDownload,
        [(destPathFull ⟨1, 0, some (Peer.user 42), none, none⟩ (strOf "3.png") 0,
          FsEntry.missing)], true) :=
  (failed_download_cleanup [] 0 ⟨1, 0, some (Peer.user 42), none, none⟩
      (Media.document (some ⟨3, 0, [], strOf "image/png", []⟩))
      (Loc.docLoc 3 0 []) (strOf "3.png") (by decide) (by decide)).1
